import Mathlib

set_option maxRecDepth 8000

/-!
Verification of the PrimeChecker repository.

Shallow embedding of the Python sources:
  - namespace `prime`               : src/prime.py
  - namespace `deterministic_prime` : src/primes/deterministic_prime.py
    (the file the specification and the claims also call "prime2.py")
  - namespace `probabilistic_prime` : src/primes/probabilistic_prime.py
  - namespace `gcd`                 : src/primes/gcd.py

Modelling conventions:
  - Python integers are `ℤ`; values that the program only ever uses as
    non-negative candidates are `ℕ`.
  - `math.floor(math.sqrt n)` is modelled as the largest `r` with `r * r ≤ n`,
    proven equal to `Nat.sqrt n`; the double-precision square root is exact on
    the ranges exercised here.
  - a Python function that can raise (IndexError from an out-of-range list
    subscript) returns `Option`: `none` is the raised exception.
  - mutation of an object is explicit state passing: a method that mutates
    returns the result paired with the new state.
-/

namespace prime

namespace OrderedList

/-- Embeds `OrderedList.max_elem` (src/prime.py line 41): `self[-1] if self else -1`. -/
def max_elem (l : List ℤ) : ℤ :=
  l.getLastD (-1)

/-- Embeds `OrderedList.append` (src/prime.py line 48): the item is appended only
if it is strictly larger than `max_elem`; otherwise the call silently does nothing. -/
def append (l : List ℤ) (item : ℤ) : List ℤ :=
  if item > max_elem l then l ++ [item] else l

/-- Embeds `OrderedList.get_nums_below` (src/prime.py line 53): starting from index 0,
advance while `self[idx] <= ceiling`, then return `self[:idx]`.  When every element is
at most the ceiling the subscript runs past the end of the list and Python raises
IndexError (the TODO on line 59 of the source notes this); that exception is `none`. -/
def get_nums_below (l : List ℤ) (ceiling : ℤ) : Option (List ℤ) :=
  match l with
  | [] => none
  | x :: xs => if x ≤ ceiling then (get_nums_below xs ceiling).map (x :: ·) else some []

end OrderedList

/-- Embeds `round_sqrt` (src/prime.py line 8): `floor(sqrt(num))`, the largest `r`
with `r * r ≤ num`.  It is computed by a bounded scan so that proofs can evaluate
it by kernel reduction; `prime_round_sqrt_eq` below proves it equal to `Nat.sqrt`,
the mathematical floor square root (exact for every natural, which the
double-precision `math.sqrt` is on the ranges exercised here). -/
def round_sqrt (num : ℕ) : ℕ :=
  ((List.range (num + 1)).filter (fun r => decide (r * r ≤ num))).getLastD 0

namespace PrimesCache

/-- Embeds `PrimesCache._possible_factors` (src/prime.py line 87):
`self.primes.get_nums_below(round_sqrt(val))`.  The state of a `PrimesCache`
is its ordered list of primes. -/
def _possible_factors (primes : List ℤ) (val : ℕ) : Option (List ℤ) :=
  OrderedList.get_nums_below primes (round_sqrt val)

/-- Embeds `PrimesCache.is_prime` (src/prime.py line 92):
`not any(val % p_num == 0 for p_num in self._possible_factors(val))`. -/
def is_prime (primes : List ℤ) (val : ℕ) : Option Bool :=
  (_possible_factors primes val).map (fun factors => !factors.any (fun p => (val : ℤ) % p == 0))

/-- Embeds `PrimesCache.highest_tested` (src/prime.py line 109). -/
def highest_tested (primes : List ℤ) : ℤ :=
  OrderedList.max_elem primes

end PrimesCache

/-- Embeds `SMALL_PRIME_NUMS` (src/prime.py line 117). -/
def SMALL_PRIME_NUMS : List ℤ :=
  [2, 3, 5, 7, 11, 13, 17, 19, 23, 29, 31, 37, 41, 43, 47, 53, 59, 61, 67, 71, 73, 79, 83, 89, 97]

namespace SmallPrimesCache

/-- Embeds the `SmallPrimesCache` constructor (src/prime.py line 149): starting from the
empty cache, `load_prime` (that is, `OrderedList.append`) each hard-coded prime in order. -/
def init : List ℤ :=
  SMALL_PRIME_NUMS.foldl OrderedList.append []

/-- Embeds `SmallPrimesCache.highest_tested` (src/prime.py line 154): the constant 100. -/
def highest_tested : ℕ :=
  100

end SmallPrimesCache

/-- State of a `DynamicPrimesCache` (src/prime.py line 159): the inherited ordered list
of primes plus the mutable `_highest_tested` watermark. -/
structure DynamicPrimesCache where
  primes : List ℤ
  highest_tested : ℕ
deriving Repr, DecidableEq

namespace DynamicPrimesCache

/-- Embeds the `DynamicPrimesCache` constructor (src/prime.py line 165): the small-primes
table together with `_highest_tested = super().highest_tested()`. -/
def init : DynamicPrimesCache :=
  { primes := SmallPrimesCache.init, highest_tested := SmallPrimesCache.highest_tested }

/-- Embeds `DynamicPrimesCache.inc_highest_tested` (src/prime.py line 175): increment the
watermark and return its new value. -/
def inc_highest_tested (s : DynamicPrimesCache) : ℕ × DynamicPrimesCache :=
  (s.highest_tested + 1, { s with highest_tested := s.highest_tested + 1 })

/-- Embeds `DynamicPrimesCache.test_next` (src/prime.py line 180).  The source calls
`self.is_prime(test_num)`, which dispatches to the dynamic `is_prime`; since at that
point `highest_tested = test_num ≥ round_sqrt test_num`, the growth loop inside the
dynamic `is_prime` performs no iterations, so the call reduces to the base-class check
`PrimesCache.is_prime` — `test_next_calls_is_prime` below proves this reduction against
the full definition.  A `none` result is the propagated IndexError. -/
def test_next (s : DynamicPrimesCache) : Option Bool × DynamicPrimesCache :=
  let (test_num, s1) := inc_highest_tested s
  match PrimesCache.is_prime s1.primes test_num with
  | some true => (some true, { s1 with primes := OrderedList.append s1.primes (test_num : ℤ) })
  | some false => (some false, s1)
  | none => (none, s1)

theorem test_next_highest (s : DynamicPrimesCache) :
    (test_next s).2.highest_tested = s.highest_tested + 1 := by
  unfold test_next inc_highest_tested
  cases h : PrimesCache.is_prime s.primes (s.highest_tested + 1) with
  | none => simp [h]
  | some b => cases b <;> simp [h]

/-- Embeds the growth loop of `DynamicPrimesCache.is_prime` (src/prime.py line 197):
`while self.highest_tested() < target_ceil: _ = self.test_next()`.  The second
component records whether an exception escaped the loop body (in which case the
loop is aborted with the state mutated so far). -/
def grow (s : DynamicPrimesCache) (target_ceil : ℕ) : DynamicPrimesCache × Bool :=
  if h : s.highest_tested < target_ceil then
    let r := test_next s
    if r.1.isSome then grow r.2 target_ceil else (r.2, true)
  else
    (s, false)
termination_by target_ceil - s.highest_tested
decreasing_by
  have h3 := test_next_highest s
  omega

/-- Embeds `DynamicPrimesCache.is_prime` (src/prime.py line 192): grow the cache until
`highest_tested ≥ round_sqrt val`, then defer to the base-class factor check. -/
def is_prime (s : DynamicPrimesCache) (val : ℕ) : Option Bool × DynamicPrimesCache :=
  let target_ceil := round_sqrt val
  match grow s target_ceil with
  | (s2, true) => (none, s2)
  | (s2, false) => (PrimesCache.is_prime s2.primes val, s2)

theorem grow_of_le {s : DynamicPrimesCache} {target_ceil : ℕ}
    (h : target_ceil ≤ s.highest_tested) : grow s target_ceil = (s, false) := by
  unfold grow
  rw [dif_neg (Nat.not_lt.mpr h)]

end DynamicPrimesCache

end prime

namespace deterministic_prime

namespace OrderedList

/-- Embeds `OrderedList.max_elem` (src/primes/deterministic_prime.py line 17). -/
def max_elem (l : List ℤ) : ℤ :=
  l.getLastD (-1)

/-- Embeds `OrderedList.append` (src/primes/deterministic_prime.py line 24); the body is
identical to the one in src/prime.py. -/
def append (l : List ℤ) (item : ℤ) : List ℤ :=
  if item > max_elem l then l ++ [item] else l

/-- Embeds `OrderedList.get_nums_below` (src/primes/deterministic_prime.py line 29).
This revision first checks `max_elem <= ceiling` and returns the whole list in that
case; the scanning loop that follows is character-for-character the loop of
src/prime.py, so it is shared (`prime.OrderedList.get_nums_below`), and the guard
ensures it can no longer run past the end of the list. -/
def get_nums_below (l : List ℤ) (ceiling : ℤ) : Option (List ℤ) :=
  if max_elem l ≤ ceiling then some l
  else prime.OrderedList.get_nums_below l ceiling

end OrderedList

/-- Embeds `round_sqrt` (src/primes/deterministic_prime.py line 5), identical to the
one in src/prime.py (see the remark there on the bounded-scan formulation). -/
def round_sqrt (num : ℕ) : ℕ :=
  ((List.range (num + 1)).filter (fun r => decide (r * r ≤ num))).getLastD 0

namespace PrimesCache

/-- Embeds `PrimesCache._possible_factors` (src/primes/deterministic_prime.py line 65). -/
def _possible_factors (primes : List ℤ) (val : ℕ) : Option (List ℤ) :=
  OrderedList.get_nums_below primes (round_sqrt val)

/-- Embeds `PrimesCache.is_prime` (src/primes/deterministic_prime.py line 70). -/
def is_prime (primes : List ℤ) (val : ℕ) : Option Bool :=
  (_possible_factors primes val).map (fun factors => !factors.any (fun p => (val : ℤ) % p == 0))

end PrimesCache

/-- Embeds `SMALL_PRIME_NUMS` (src/primes/deterministic_prime.py line 95). -/
def SMALL_PRIME_NUMS : List ℤ :=
  [2, 3, 5, 7, 11, 13, 17, 19, 23, 29, 31, 37, 41, 43, 47, 53, 59, 61, 67, 71, 73, 79, 83, 89, 97]

/-- State of a `DynamicPrimesCache` (src/primes/deterministic_prime.py line 137). -/
structure DynamicPrimesCache where
  primes : List ℤ
  highest_tested : ℕ
deriving Repr, DecidableEq

namespace DynamicPrimesCache

/-- Embeds the `DynamicPrimesCache` constructor (src/primes/deterministic_prime.py
line 143): the loaded small-primes table and the watermark 100. -/
def init : DynamicPrimesCache :=
  { primes := SMALL_PRIME_NUMS.foldl OrderedList.append [], highest_tested := 100 }

/-- Embeds `DynamicPrimesCache.inc_highest_tested`
(src/primes/deterministic_prime.py line 153). -/
def inc_highest_tested (s : DynamicPrimesCache) : ℕ × DynamicPrimesCache :=
  (s.highest_tested + 1, { s with highest_tested := s.highest_tested + 1 })

/-- Embeds `DynamicPrimesCache.test_next` (src/primes/deterministic_prime.py line 158).
As in src/prime.py, the dynamic `is_prime` called on the fresh candidate performs no
growth iterations (here the loop guard is `highest_tested <= round_sqrt val`, and
`round_sqrt test_num < test_num = highest_tested` for every candidate above 100),
so the call reduces to the base-class check. -/
def test_next (s : DynamicPrimesCache) : Option Bool × DynamicPrimesCache :=
  let (test_num, s1) := inc_highest_tested s
  match PrimesCache.is_prime s1.primes test_num with
  | some true => (some true, { s1 with primes := OrderedList.append s1.primes (test_num : ℤ) })
  | some false => (some false, s1)
  | none => (none, s1)

theorem det_test_next_highest (s : DynamicPrimesCache) :
    (test_next s).2.highest_tested = s.highest_tested + 1 := by
  unfold test_next inc_highest_tested
  cases h : PrimesCache.is_prime s.primes (s.highest_tested + 1) with
  | none => simp [h]
  | some b => cases b <;> simp [h]

/-- Embeds the growth loop of `DynamicPrimesCache.is_prime`
(src/primes/deterministic_prime.py line 175): note the non-strict guard
`while self.highest_tested() <= target_ceil`, unlike src/prime.py. -/
def grow (s : DynamicPrimesCache) (target_ceil : ℕ) : DynamicPrimesCache × Bool :=
  if h : s.highest_tested ≤ target_ceil then
    let r := test_next s
    if r.1.isSome then grow r.2 target_ceil else (r.2, true)
  else
    (s, false)
termination_by target_ceil + 1 - s.highest_tested
decreasing_by
  have h3 := det_test_next_highest s
  omega

/-- Embeds `DynamicPrimesCache.is_prime` (src/primes/deterministic_prime.py line 170). -/
def is_prime (s : DynamicPrimesCache) (val : ℕ) : Option Bool × DynamicPrimesCache :=
  let target_ceil := round_sqrt val
  match grow s target_ceil with
  | (s2, true) => (none, s2)
  | (s2, false) => (PrimesCache.is_prime s2.primes val, s2)

theorem grow_of_lt {s : DynamicPrimesCache} {target_ceil : ℕ}
    (h : target_ceil < s.highest_tested) : grow s target_ceil = (s, false) := by
  unfold grow
  rw [dif_neg (Nat.not_le.mpr h)]

end DynamicPrimesCache

/-- Working state of the `SieveOfEratosthenes` constructor
(src/primes/deterministic_prime.py line 185): the prime list being built, the
`_composites` buffer (a Python `set`, modelled as a duplicate-free list), and the
`_curr` counter. -/
structure SieveState where
  primes : List ℤ
  composites : List ℕ
  curr : ℕ
deriving Repr, DecidableEq

/-- State of a constructed `SieveOfEratosthenes`: after `_setup` the composites
buffer is freed (set to `None`), leaving the prime list and `_curr`. -/
structure SieveOfEratosthenes where
  primes : List ℤ
  curr : ℕ
deriving Repr, DecidableEq

namespace SieveOfEratosthenes

/-- Models `set.add` for the `_composites` buffer: inserting an already-present
element leaves the set unchanged. -/
def set_add (comps : List ℕ) (x : ℕ) : List ℕ :=
  if x ∈ comps then comps else x :: comps

/-- Embeds the inner marking loop of `_setup` (src/primes/deterministic_prime.py
line 213): `curr_factor` starts at twice the prime and steps by the prime while it is
at most the ceiling, adding each value to the composites set.  The loop runs at most
`ceil` times, so the structural fuel `ceil + 1` supplied by `sieve_step` never runs
out and the recursion is exactly the while loop. -/
def mark_multiples (c ceil : ℕ) : ℕ → ℕ → List ℕ → List ℕ
  | _, 0, comps => comps
  | curr_factor, fuel + 1, comps =>
    if curr_factor ≤ ceil then
      mark_multiples c ceil (curr_factor + c) fuel (set_add comps curr_factor)
    else
      comps

/-- Embeds one iteration of the `_setup` loop body (src/primes/deterministic_prime.py
lines 207-220).  The source reads `self._curr_num`; that property accessor is declared
without `self` (line 195), so evaluating it actually raises TypeError — it is modelled
here as the read of `self._curr` that its own body `return self._curr` intends. -/
def sieve_step (ceil : ℕ) (st : SieveState) : SieveState :=
  if st.curr ∉ st.composites then
    { primes := OrderedList.append st.primes (st.curr : ℤ),
      composites := mark_multiples st.curr ceil (st.curr * 2) (ceil + 1) st.composites,
      curr := st.curr + 1 }
  else
    { st with composites := st.composites.erase st.curr, curr := st.curr + 1 }

/-- Embeds the outer loop of `_setup`: `while self._curr_num <= ceil`.  Each iteration
increments `_curr` by one, so the loop performs at most `ceil + 1 - curr` iterations
and the structural fuel `limit + 1` supplied by `mk` never runs out
(`setup_loop_curr` below proves the loop indeed stops with `_curr = ceil + 1`). -/
def setup_loop (ceil : ℕ) : ℕ → SieveState → SieveState
  | 0, st => st
  | fuel + 1, st => if st.curr ≤ ceil then setup_loop ceil fuel (sieve_step ceil st) else st

/-- Embeds the `SieveOfEratosthenes` constructor (src/primes/deterministic_prime.py
line 185): empty composites buffer, `_curr = 2`, then `_setup(limit)`; afterwards the
composites buffer is dropped. -/
def init (limit : ℕ) : SieveOfEratosthenes :=
  let st := setup_loop limit (limit + 1) { primes := [], composites := [], curr := 2 }
  { primes := st.primes, curr := st.curr }

/-- Embeds `SieveOfEratosthenes.highest_tested` (src/primes/deterministic_prime.py
line 224): it returns `self._curr_num`, modelled as the `_curr` field (the property
accessor itself is broken in the source, see `sieve_step`). -/
def highest_tested (s : SieveOfEratosthenes) : ℕ :=
  s.curr

/-- The inherited `PrimesCache.is_prime` as invoked on a sieve cache. -/
def is_prime (s : SieveOfEratosthenes) (val : ℕ) : Option Bool :=
  PrimesCache.is_prime s.primes val

end SieveOfEratosthenes

end deterministic_prime

namespace gcd

namespace Euclidean

/-- Embeds `Euclidean.recursive_calculate` (src/primes/gcd.py line 76):
`a if b == 0 else recursive_calculate(b, a % b)`.  `Euclidean.calculate` (line 84)
defers directly to this function. -/
def recursive_calculate (a b : ℕ) : ℕ :=
  if b = 0 then a else recursive_calculate b (a % b)
termination_by b
decreasing_by
  exact Nat.mod_lt _ (Nat.pos_of_ne_zero (by assumption))

theorem recursive_calculate_eq_gcd (a b : ℕ) : recursive_calculate a b = Nat.gcd a b := by
  rw [recursive_calculate]
  split
  · simp_all
  · rw [Nat.gcd_comm, Nat.gcd_rec b a, Nat.gcd_comm (a % b) b]
    exact recursive_calculate_eq_gcd b (a % b)
termination_by b
decreasing_by
  exact Nat.mod_lt _ (Nat.pos_of_ne_zero (by assumption))

end Euclidean

/-- Modelled from the spec: `CoprimePred` (src/primes/gcd.py line 175) is an empty
class (`pass`), so the coprimality predicate the probabilistic tester consumes is
missing from the source; section 6 of the spec fixes it as
`is_coprime(a, b)` defined as `gcd(a, b) == 1`, with `gcd` the Euclidean
collaborator implemented above. -/
def is_coprime (a b : ℕ) : Bool :=
  Euclidean.recursive_calculate a b == 1

end gcd

namespace probabilistic_prime

/-- Embeds the `PredRes` result hierarchy of src/primes/probabilistic_prime.py as a
tagged variant: `PrimeRes` (line 37, definitely prime, no payload), `MaybePrimeRes`
(line 44, probably prime, carrying `num_tests`), and `CompositeRes` (line 57,
definitely composite, carrying the witness). -/
inductive PredRes where
  | PrimeRes : PredRes
  | MaybePrimeRes (num_tests : ℕ) : PredRes
  | CompositeRes (witness : ℤ) : PredRes
deriving Repr, DecidableEq

namespace PredRes

/-- Embeds the `is_prime` query of the result hierarchy: `PrimeRes.is_prime`
(line 40) returns `True`; `MaybePrimeRes` (line 44) subclasses `PrimeRes` and does
not override `is_prime`, so it inherits that same `True`; `CompositeRes.is_prime`
(line 73) returns `False`. -/
def is_prime : PredRes → Bool
  | PrimeRes => true
  | MaybePrimeRes _ => true
  | CompositeRes _ => false

end PredRes

namespace WilsonsThm

/-- Embeds `WilsonsThm.is_prime` (src/primes/probabilistic_prime.py line 110): the
body is `(factorial(val - 1) + 1) % val == 0`, a bare boolean — not the `PredRes`
object its annotation declares. -/
def is_prime (val : ℕ) : Bool :=
  (Nat.factorial (val - 1) + 1) % val == 0

end WilsonsThm

namespace FermatTest

/-- Modelled from the spec: `FermatTest.is_prime`
(src/primes/probabilistic_prime.py line 99) has a docstring and no body (the method
returns `None`), so the test logic is missing from the source.  Spec section 4.6 fixes
it: pick a witness `a` coprime to the candidate (via the GCD collaborator), compute
`a^(candidate−1) mod candidate`, and the result is `Composite(a)` if that value is
not 1, else `ProbablePrime(1)`.  The witness choice is the abstract `sample_num`
sample, so it is a parameter here. -/
def is_prime (val a : ℕ) : PredRes :=
  if a ^ (val - 1) % val ≠ 1 then .CompositeRes (a : ℤ) else .MaybePrimeRes 1

end FermatTest

end probabilistic_prime

/-! Supporting notions for the correctness proofs: an executable reference primality
predicate, the list of primes up to a bound, and facts about the embedded list
operations on sorted lists. -/

/-- Executable reference primality test: `2 ≤ n` and no `d` with `2 ≤ d < n`
divides `n`.  Proven equivalent to `Nat.Prime` below; used to state and compute
cache invariants. -/
def isPrimeRef (n : ℕ) : Bool :=
  decide (2 ≤ n) && (List.range n).all (fun d => decide (d < 2) || decide (n % d ≠ 0))

theorem isPrimeRef_iff (n : ℕ) : isPrimeRef n = true ↔ n.Prime := by
  rw [Nat.prime_def_lt']
  simp only [isPrimeRef, Bool.and_eq_true, decide_eq_true_eq, List.all_eq_true,
    List.mem_range, Bool.or_eq_true]
  refine and_congr_right fun _ => ⟨fun H m hm2 hmn hdvd => ?_, fun H d hdn => ?_⟩
  · rcases H m hmn with h | h
    · omega
    · exact h (Nat.dvd_iff_mod_eq_zero.mp hdvd)
  · by_cases hd2 : d < 2
    · exact Or.inl hd2
    · exact Or.inr fun hmod => H d (by omega) hdn (Nat.dvd_of_mod_eq_zero hmod)

/-- All primes up to and including `w`, in increasing order. -/
def primesUpTo (w : ℕ) : List ℕ :=
  (List.range (w + 1)).filter isPrimeRef

theorem mem_primesUpTo {w n : ℕ} : n ∈ primesUpTo w ↔ n.Prime ∧ n ≤ w := by
  simp only [primesUpTo, List.mem_filter, List.mem_range, Nat.lt_succ_iff, isPrimeRef_iff]
  exact and_comm

theorem primesUpTo_sorted (w : ℕ) : (primesUpTo w).Pairwise (· < ·) :=
  List.Pairwise.sublist (List.filter_sublist _) (List.pairwise_lt_range _)

theorem primesUpTo_succ (w : ℕ) :
    primesUpTo (w + 1) = primesUpTo w ++ if isPrimeRef (w + 1) then [w + 1] else [] := by
  rw [primesUpTo, primesUpTo, List.range_succ, List.filter_append]
  cases h : isPrimeRef (w + 1) <;> simp [h]

theorem getLastD_le {B : ℤ} : ∀ (l : List ℤ) (d : ℤ), d ≤ B → (∀ x ∈ l, x ≤ B) →
    l.getLastD d ≤ B := by
  intro l
  induction l with
  | nil => intro d hd _; exact hd
  | cons x xs ih =>
    intro d _ h
    rw [List.getLastD_cons]
    exact ih x (h x (List.mem_cons_self x xs)) fun y hy => h y (List.mem_cons_of_mem x hy)

theorem max_elem_le {l : List ℤ} {B : ℤ} (hB : -1 ≤ B) (h : ∀ x ∈ l, x ≤ B) :
    prime.OrderedList.max_elem l ≤ B :=
  getLastD_le l (-1) hB h

theorem getLastD_eq_max {l : List ℕ} {x : ℕ} (d : ℕ) (hs : l.Pairwise (· < ·))
    (hx : x ∈ l) (hmax : ∀ y ∈ l, y ≤ x) : l.getLastD d = x := by
  induction l generalizing d with
  | nil => cases hx
  | cons a as ih =>
    rw [List.getLastD_cons]
    rcases List.mem_cons.mp hx with hxa | hx2
    · subst hxa
      cases as with
      | nil => rfl
      | cons b bs =>
        have hab : x < b := (List.pairwise_cons.mp hs).1 b (List.mem_cons_self _ _)
        have hba : b ≤ x := hmax b (List.mem_cons_of_mem _ (List.mem_cons_self _ _))
        exact absurd hba (Nat.not_le.mpr hab)
    · exact ih a (List.Pairwise.of_cons hs) hx2
        (fun y hy => hmax y (List.mem_cons_of_mem _ hy))

theorem prime_round_sqrt_eq (n : ℕ) : prime.round_sqrt n = Nat.sqrt n := by
  rw [prime.round_sqrt]
  refine getLastD_eq_max 0
    (List.Pairwise.sublist (List.filter_sublist _) (List.pairwise_lt_range _)) ?_ ?_
  · refine List.mem_filter.mpr ⟨List.mem_range.mpr ?_, ?_⟩
    · have := Nat.sqrt_le_self n
      omega
    · simpa using Nat.sqrt_le n
  · intro y hy
    exact Nat.le_sqrt.mpr (by simpa using (List.mem_filter.mp hy).2)

theorem det_round_sqrt_eq (n : ℕ) : deterministic_prime.round_sqrt n = Nat.sqrt n :=
  prime_round_sqrt_eq n

/-- Justifies the inlining inside the `test_next` of src/prime.py: calling the full
dynamic `is_prime` on the freshly incremented watermark equals the base-class
`PrimesCache.is_prime`, because the growth loop runs zero iterations there. -/
theorem test_next_calls_is_prime (s : prime.DynamicPrimesCache) :
    prime.DynamicPrimesCache.is_prime
        { s with highest_tested := s.highest_tested + 1 } (s.highest_tested + 1)
      = (prime.PrimesCache.is_prime s.primes (s.highest_tested + 1),
         { s with highest_tested := s.highest_tested + 1 }) := by
  simp only [prime.DynamicPrimesCache.is_prime]
  rw [prime.DynamicPrimesCache.grow_of_le
    (by rw [prime_round_sqrt_eq]; exact Nat.sqrt_le_self _)]

/-- On a strictly sorted list the scanning loop of src/prime.py returns (when some
element exceeds the ceiling, so that it terminates normally) exactly the elements
that are at most the ceiling. -/
theorem get_nums_below_eq_filter {l : List ℤ} {c : ℤ} (hs : l.Pairwise (· < ·))
    (hex : ∃ x ∈ l, c < x) :
    prime.OrderedList.get_nums_below l c = some (l.filter (fun x => decide (x ≤ c))) := by
  induction l with
  | nil => simp at hex
  | cons x xs ih =>
    rw [prime.OrderedList.get_nums_below]
    by_cases hx : x ≤ c
    · rw [if_pos hx]
      have hex2 : ∃ y ∈ xs, c < y := by
        obtain ⟨y, hy, hcy⟩ := hex
        rcases List.mem_cons.mp hy with rfl | hy2
        · omega
        · exact ⟨y, hy2, hcy⟩
      rw [ih (List.Pairwise.of_cons hs) hex2]
      simp [hx]
    · rw [if_neg hx]
      have hnil : (x :: xs).filter (fun x => decide (x ≤ c)) = [] := by
        rw [List.filter_eq_nil_iff]
        intro y hy
        rcases List.mem_cons.mp hy with rfl | hy2
        · simpa using hx
        · have hxy : x < y := (List.pairwise_cons.mp hs).1 y hy2
          simp only [decide_eq_true_eq]
          omega
      rw [hnil]

/-- Trial division against all primes up to `√t` decides primality. -/
theorem trial_division_iff {t : ℕ} (h2 : 2 ≤ t) :
    (∃ p : ℕ, p.Prime ∧ p ≤ Nat.sqrt t ∧ p ∣ t) ↔ ¬t.Prime := by
  constructor
  · rintro ⟨p, hp, hps, hpd⟩ ht
    have hplt : p < t := lt_of_le_of_lt hps (Nat.sqrt_lt_self (by omega))
    rcases ht.eq_one_or_self_of_dvd p hpd with h1 | h1
    · exact hp.one_lt.ne' h1
    · omega
  · intro ht
    refine ⟨t.minFac, Nat.minFac_prime (by omega), ?_, Nat.minFac_dvd t⟩
    exact Nat.le_sqrt'.mpr (Nat.minFac_sq_le_self (by omega) ht)

/-- Embeds the step from a list of naturals to the list of Python integers held by a
cache. -/
def intsOf (l : List ℕ) : List ℤ :=
  List.map (fun n : ℕ => (n : ℤ)) l

theorem mem_intsOf {l : List ℕ} {x : ℤ} : x ∈ intsOf l ↔ ∃ n ∈ l, (n : ℤ) = x :=
  List.mem_map

theorem intsOf_sorted {l : List ℕ} (h : l.Pairwise (· < ·)) : (intsOf l).Pairwise (· < ·) := by
  rw [intsOf, List.pairwise_map]
  exact h.imp fun hab => by exact_mod_cast hab

/-- Evaluates the base-class factor check of src/prime.py on a cache holding exactly
the primes up to `w`: provided the watermark covers `√t` and some cached prime
exceeds `√t` (so the scanning loop terminates normally), the check returns exactly
the reference primality of `t`. -/
theorem cache_is_prime_eval {w t : ℕ} (h2 : 2 ≤ t) (hsq : Nat.sqrt t ≤ w)
    (hbig : ∃ q ∈ primesUpTo w, Nat.sqrt t < q) :
    prime.PrimesCache.is_prime (intsOf (primesUpTo w)) t
      = some (isPrimeRef t) := by
  have hsort : (intsOf (primesUpTo w)).Pairwise (· < ·) := intsOf_sorted (primesUpTo_sorted w)
  have hex : ∃ x ∈ intsOf (primesUpTo w), ((Nat.sqrt t : ℕ) : ℤ) < x := by
    obtain ⟨q, hq, hqgt⟩ := hbig
    exact ⟨(q : ℤ), mem_intsOf.mpr ⟨q, hq, rfl⟩, by exact_mod_cast hqgt⟩
  rw [prime.PrimesCache.is_prime, prime.PrimesCache._possible_factors, prime_round_sqrt_eq,
    get_nums_below_eq_filter hsort hex, Option.map_some']
  congr 1
  have hany :
      ((intsOf (primesUpTo w)).filter
          (fun x => decide (x ≤ ((Nat.sqrt t : ℕ) : ℤ)))).any
        (fun p => (t : ℤ) % p == 0) = true ↔ ¬t.Prime := by
    rw [← trial_division_iff h2]
    simp only [List.any_eq_true, List.mem_filter, intsOf, List.mem_map, decide_eq_true_eq,
      beq_iff_eq]
    constructor
    · rintro ⟨x, ⟨⟨p, hp, rfl⟩, hle⟩, hmod⟩
      have hp2 := mem_primesUpTo.mp hp
      refine ⟨p, hp2.1, ?_, ?_⟩
      · exact_mod_cast hle
      · exact_mod_cast Int.dvd_of_emod_eq_zero hmod
    · rintro ⟨p, hp, hle, hdvd⟩
      refine ⟨(p : ℤ), ⟨⟨p, mem_primesUpTo.mpr ⟨hp, le_trans hle hsq⟩, rfl⟩, ?_⟩, ?_⟩
      · exact_mod_cast hle
      · exact Int.emod_eq_zero_of_dvd (by exact_mod_cast hdvd)
  by_cases hprime : t.Prime
  · have hX :
        ((intsOf (primesUpTo w)).filter
            (fun x => decide (x ≤ ((Nat.sqrt t : ℕ) : ℤ)))).any
          (fun p => (t : ℤ) % p == 0) = false := by
      cases hXc :
          ((intsOf (primesUpTo w)).filter
              (fun x => decide (x ≤ ((Nat.sqrt t : ℕ) : ℤ)))).any
            (fun p => (t : ℤ) % p == 0) with
      | false => rfl
      | true => exact absurd hprime (hany.mp hXc)
    rw [hX, (isPrimeRef_iff t).mpr hprime]
    rfl
  · have hfalse : isPrimeRef t = false := by
      cases hic : isPrimeRef t with
      | false => rfl
      | true => exact absurd ((isPrimeRef_iff t).mp hic) hprime
    rw [hany.mpr hprime, hfalse]
    rfl

/-- A cache that is complete up to a watermark of at least 100 always holds a prime
strictly above `√(w+1)`: below 9409 the cached 97 suffices, and beyond that the
Bertrand postulate provides a prime in `(w/2, w]`. -/
theorem exists_big_prime {w : ℕ} (hw : 100 ≤ w) :
    ∃ q ∈ primesUpTo w, Nat.sqrt (w + 1) < q := by
  by_cases hsmall : w + 1 < 9409
  · refine ⟨97, mem_primesUpTo.mpr ⟨by norm_num, by omega⟩, ?_⟩
    rw [Nat.sqrt_lt]
    omega
  · push_neg at hsmall
    obtain ⟨p, hp, hlow, hhigh⟩ := Nat.exists_prime_lt_and_le_two_mul (w / 2) (by omega)
    refine ⟨p, mem_primesUpTo.mpr ⟨hp, by omega⟩, ?_⟩
    have hq : 4704 ≤ w / 2 := by omega
    have hw2 : w ≤ 2 * (w / 2) + 1 := by omega
    have h1 : w + 1 ≤ (w / 2) * (w / 2) := by nlinarith
    have hs : Nat.sqrt (w + 1) ≤ w / 2 :=
      le_trans (Nat.sqrt_le_sqrt h1) (le_of_eq (Nat.sqrt_eq _))
    omega

theorem append_of_gt {l : List ℤ} {t : ℤ} (h : prime.OrderedList.max_elem l < t) :
    prime.OrderedList.append l t = l ++ [t] := by
  rw [prime.OrderedList.append, if_pos h]

theorem max_elem_primesUpTo (w : ℕ) :
    prime.OrderedList.max_elem (intsOf (primesUpTo w)) ≤ (w : ℤ) := by
  refine max_elem_le (by omega) fun x hx => ?_
  obtain ⟨n, hn, rfl⟩ := mem_intsOf.mp hx
  have := (mem_primesUpTo.mp hn).2
  omega

/-- Strong invariant of the incremental cache of src/prime.py: the sequence holds
exactly the primes up to the watermark, in increasing order, and the watermark never
falls below its initial value 100. -/
def SInv (s : prime.DynamicPrimesCache) : Prop :=
  s.primes = intsOf (primesUpTo s.highest_tested) ∧ 100 ≤ s.highest_tested

theorem SInv_init : SInv prime.DynamicPrimesCache.init :=
  ⟨by decide, by decide⟩

/-- Under the invariant, `test_next` reports exactly the reference primality of the
new candidate `highest_tested + 1`, never raises, and restores the invariant at the
incremented watermark. -/
theorem test_next_eval {s : prime.DynamicPrimesCache} (hS : SInv s) :
    prime.DynamicPrimesCache.test_next s
      = (some (isPrimeRef (s.highest_tested + 1)),
         { primes := intsOf (primesUpTo (s.highest_tested + 1)),
           highest_tested := s.highest_tested + 1 }) := by
  obtain ⟨hp, hw⟩ := hS
  have hsqle : Nat.sqrt (s.highest_tested + 1) ≤ s.highest_tested := by
    have := Nat.sqrt_lt_self (show 1 < s.highest_tested + 1 by omega)
    omega
  have hbase : prime.PrimesCache.is_prime s.primes (s.highest_tested + 1)
      = some (isPrimeRef (s.highest_tested + 1)) := by
    rw [hp]
    exact cache_is_prime_eval (by omega) hsqle (exists_big_prime hw)
  unfold prime.DynamicPrimesCache.test_next prime.DynamicPrimesCache.inc_highest_tested
  cases hres : isPrimeRef (s.highest_tested + 1) with
  | true =>
    rw [hres] at hbase
    simp only [hbase]
    rw [hp, append_of_gt (lt_of_le_of_lt (max_elem_primesUpTo _) (by omega))]
    rw [primesUpTo_succ, hres]
    simp [intsOf]
  | false =>
    rw [hres] at hbase
    simp only [hbase]
    rw [hp, primesUpTo_succ, hres]
    simp [intsOf]

/-- Under the invariant the growth loop of src/prime.py never raises and preserves
the invariant (stated with an explicit bound on the number of missing candidates so
that the induction is structural). -/
theorem grow_eval (fuel : ℕ) : ∀ (s : prime.DynamicPrimesCache) (target : ℕ),
    target - s.highest_tested ≤ fuel → SInv s →
    SInv (prime.DynamicPrimesCache.grow s target).1
      ∧ (prime.DynamicPrimesCache.grow s target).2 = false := by
  induction fuel with
  | zero =>
    intro s target hle hS
    rw [prime.DynamicPrimesCache.grow_of_le (by omega)]
    exact ⟨hS, rfl⟩
  | succ n ih =>
    intro s target hle hS
    by_cases h : s.highest_tested < target
    · rw [prime.DynamicPrimesCache.grow]
      rw [dif_pos h, test_next_eval hS]
      simp only [Option.isSome_some, if_true]
      refine ih _ target ?_ ⟨rfl, ?_⟩
      · show target - (s.highest_tested + 1) ≤ n
        omega
      · show 100 ≤ s.highest_tested + 1
        obtain ⟨_, hw⟩ := hS
        omega
    · rw [prime.DynamicPrimesCache.grow_of_le (by omega)]
      exact ⟨hS, rfl⟩

/-- The state effect of a full dynamic `is_prime` query preserves the invariant. -/
theorem is_prime_state {s : prime.DynamicPrimesCache} (hS : SInv s) (val : ℕ) :
    SInv (prime.DynamicPrimesCache.is_prime s val).2 := by
  obtain ⟨hS2, hfalse⟩ :=
    grow_eval (prime.round_sqrt val) s (prime.round_sqrt val) (by omega) hS
  simp only [prime.DynamicPrimesCache.is_prime]
  rcases hgrow : prime.DynamicPrimesCache.grow s (prime.round_sqrt val) with ⟨s2, err⟩
  rw [hgrow] at hS2 hfalse
  have hf2 : err = false := hfalse
  subst hf2
  exact hS2

/-- One cache operation of claim C2: a `test_next()` call or an `is_prime(v)` query. -/
inductive Op where
  | tn : Op
  | ip (v : ℕ) : Op
deriving Repr, DecidableEq

/-- Validity per the claim: `is_prime` is only queried with `v ≥ 2`. -/
def Op.valid : Op → Prop
  | .tn => True
  | .ip v => 2 ≤ v

instance : DecidablePred Op.valid := fun op => by
  cases op with
  | tn => exact inferInstanceAs (Decidable True)
  | ip v => exact inferInstanceAs (Decidable (2 ≤ v))

/-- State effect of one operation on the incremental cache of src/prime.py. -/
def applyOp (s : prime.DynamicPrimesCache) : Op → prime.DynamicPrimesCache
  | .tn => (prime.DynamicPrimesCache.test_next s).2
  | .ip v => (prime.DynamicPrimesCache.is_prime s v).2

/-- Runs a sequence of operations from a starting state. -/
def run (s : prime.DynamicPrimesCache) (ops : List Op) : prime.DynamicPrimesCache :=
  ops.foldl applyOp s

theorem SInv_applyOp {s : prime.DynamicPrimesCache} (hS : SInv s) (op : Op) :
    SInv (applyOp s op) := by
  cases op with
  | tn =>
    show SInv (prime.DynamicPrimesCache.test_next s).2
    rw [test_next_eval hS]
    refine ⟨rfl, ?_⟩
    show 100 ≤ s.highest_tested + 1
    obtain ⟨_, hw⟩ := hS
    omega
  | ip v => exact is_prime_state hS v

theorem SInv_run (ops : List Op) : ∀ s, SInv s → SInv (run s ops) := by
  induction ops with
  | nil => intro s hS; exact hS
  | cons op ops ih => intro s hS; exact ih _ (SInv_applyOp hS op)

/-- The completeness property exactly as claim C2 states it: every prime up to the
watermark is in the sequence, and no composite number is in the sequence. -/
def CacheComplete (s : prime.DynamicPrimesCache) : Prop :=
  (∀ n : ℕ, n.Prime → n ≤ s.highest_tested → (n : ℤ) ∈ s.primes)
  ∧ ∀ n : ℕ, 2 ≤ n → ¬n.Prime → (n : ℤ) ∉ s.primes

theorem SInv_implies_complete {s : prime.DynamicPrimesCache} (hS : SInv s) :
    CacheComplete s := by
  obtain ⟨hp, _⟩ := hS
  constructor
  · intro n hn hle
    rw [hp]
    exact mem_intsOf.mpr ⟨n, mem_primesUpTo.mpr ⟨hn, hle⟩, rfl⟩
  · intro n _ hnp hmem
    rw [hp] at hmem
    obtain ⟨m, hm, hcast⟩ := mem_intsOf.mp hmem
    have hmn : m = n := by exact_mod_cast hcast
    subst hmn
    exact hnp (mem_primesUpTo.mp hm).1

/-! Further facts about the embedded list operations, and the correctness of the
sieve of src/primes/deterministic_prime.py via its loop invariant. -/

theorem getLastD_cons_ne_nil {l : List ℤ} (h : l ≠ []) (d d2 : ℤ) :
    l.getLastD d = l.getLastD d2 := by
  cases l with
  | nil => exact absurd rfl h
  | cons a as => rw [List.getLastD_cons, List.getLastD_cons]

theorem le_max_elem_of_mem {l : List ℤ} (hs : l.Pairwise (· < ·)) :
    ∀ x ∈ l, x ≤ prime.OrderedList.max_elem l := by
  induction l with
  | nil => intro x hx; cases hx
  | cons a as ih =>
    intro x hx
    rcases List.mem_cons.mp hx with rfl | hx2
    · cases as with
      | nil => exact le_of_eq rfl
      | cons b bs =>
        have hab : x < b := (List.pairwise_cons.mp hs).1 b (List.mem_cons_self _ _)
        have hb := ih (List.Pairwise.of_cons hs) b (List.mem_cons_self b bs)
        rw [prime.OrderedList.max_elem, List.getLastD_cons]
        rw [prime.OrderedList.max_elem] at hb
        rw [getLastD_cons_ne_nil (by simp) x (-1)]
        omega
    · have hne : as ≠ [] := by
        intro hnil
        rw [hnil] at hx2
        cases hx2
      have hb := ih (List.Pairwise.of_cons hs) x hx2
      rw [prime.OrderedList.max_elem, List.getLastD_cons, getLastD_cons_ne_nil hne a (-1)]
      rw [prime.OrderedList.max_elem] at hb
      exact hb

/-- The revised `get_nums_below` runs the scanning loop of src/prime.py whenever its
guard fails, that is, when some element exceeds the ceiling. -/
theorem det_get_nums_below_eq_scan {l : List ℤ} {c : ℤ}
    (h : ¬deterministic_prime.OrderedList.max_elem l ≤ c) :
    deterministic_prime.OrderedList.get_nums_below l c
      = prime.OrderedList.get_nums_below l c := by
  rw [deterministic_prime.OrderedList.get_nums_below, if_neg h]

theorem det_round_sqrt_eq_prime (n : ℕ) :
    deterministic_prime.round_sqrt n = prime.round_sqrt n :=
  rfl

theorem det_max_elem_eq_prime (l : List ℤ) :
    deterministic_prime.OrderedList.max_elem l = prime.OrderedList.max_elem l :=
  rfl

/-- Under the same guard the base-class check of src/primes/deterministic_prime.py
coincides with that of src/prime.py. -/
theorem det_base_is_prime_eq {l : List ℤ} {t : ℕ}
    (h : ¬deterministic_prime.OrderedList.max_elem l
        ≤ ((deterministic_prime.round_sqrt t : ℕ) : ℤ)) :
    deterministic_prime.PrimesCache.is_prime l t = prime.PrimesCache.is_prime l t := by
  rw [deterministic_prime.PrimesCache.is_prime, deterministic_prime.PrimesCache._possible_factors,
    det_get_nums_below_eq_scan h, det_round_sqrt_eq_prime,
    prime.PrimesCache.is_prime, prime.PrimesCache._possible_factors]

theorem max_elem_gt_of_big {w b : ℕ} (hbig : ∃ q ∈ primesUpTo w, b < q) :
    ¬deterministic_prime.OrderedList.max_elem (intsOf (primesUpTo w)) ≤ (b : ℤ) := by
  obtain ⟨q, hq, hqgt⟩ := hbig
  have hle : (q : ℤ) ≤ prime.OrderedList.max_elem (intsOf (primesUpTo w)) :=
    le_max_elem_of_mem (intsOf_sorted (primesUpTo_sorted w)) _ (mem_intsOf.mpr ⟨q, hq, rfl⟩)
  rw [det_max_elem_eq_prime]
  omega

/-- The analogue of `cache_is_prime_eval` for the base-class check of
src/primes/deterministic_prime.py, hence for the sieve cache. -/
theorem det_cache_is_prime_eval {w t : ℕ} (h2 : 2 ≤ t) (hsq : Nat.sqrt t ≤ w)
    (hbig : ∃ q ∈ primesUpTo w, Nat.sqrt t < q) :
    deterministic_prime.PrimesCache.is_prime (intsOf (primesUpTo w)) t
      = some (isPrimeRef t) := by
  rw [det_base_is_prime_eq (by
    rw [det_round_sqrt_eq_prime, prime_round_sqrt_eq]
    exact max_elem_gt_of_big hbig)]
  exact cache_is_prime_eval h2 hsq hbig

/-- On candidates whose floor square root is at most 1 — that is, 0, 1, 2 and 3 —
trial division over a prime cache is vacuous and the src/prime.py check answers
`True`. -/
theorem cache_is_prime_small {w t : ℕ} (hw : 2 ≤ w) (ht : Nat.sqrt t ≤ 1) :
    prime.PrimesCache.is_prime (intsOf (primesUpTo w)) t = some true := by
  have h2mem : (2 : ℕ) ∈ primesUpTo w := mem_primesUpTo.mpr ⟨Nat.prime_two, hw⟩
  have hsort : (intsOf (primesUpTo w)).Pairwise (· < ·) := intsOf_sorted (primesUpTo_sorted w)
  have hex : ∃ x ∈ intsOf (primesUpTo w), ((Nat.sqrt t : ℕ) : ℤ) < x :=
    ⟨2, mem_intsOf.mpr ⟨2, h2mem, rfl⟩, by exact_mod_cast (by omega : Nat.sqrt t < 2)⟩
  rw [prime.PrimesCache.is_prime, prime.PrimesCache._possible_factors, prime_round_sqrt_eq,
    get_nums_below_eq_filter hsort hex, Option.map_some']
  have hnil : (intsOf (primesUpTo w)).filter
      (fun x => decide (x ≤ ((Nat.sqrt t : ℕ) : ℤ))) = [] := by
    rw [List.filter_eq_nil_iff]
    intro x hx
    obtain ⟨n, hn, rfl⟩ := mem_intsOf.mp hx
    have hn2 := (mem_primesUpTo.mp hn).1.two_le
    simp only [decide_eq_true_eq]
    exact_mod_cast (by omega : ¬n ≤ Nat.sqrt t)
  rw [hnil]
  rfl

theorem det_cache_is_prime_small {w t : ℕ} (hw : 2 ≤ w) (ht : Nat.sqrt t ≤ 1) :
    deterministic_prime.PrimesCache.is_prime (intsOf (primesUpTo w)) t = some true := by
  rw [det_base_is_prime_eq (by
    rw [det_round_sqrt_eq_prime, prime_round_sqrt_eq]
    exact max_elem_gt_of_big ⟨2, mem_primesUpTo.mpr ⟨Nat.prime_two, hw⟩, by omega⟩)]
  exact cache_is_prime_small hw ht

theorem mem_set_add {comps : List ℕ} {x m : ℕ} :
    m ∈ deterministic_prime.SieveOfEratosthenes.set_add comps x ↔ m ∈ comps ∨ m = x := by
  rw [deterministic_prime.SieveOfEratosthenes.set_add]
  split
  · constructor
    · exact fun h => Or.inl h
    · rintro (h | rfl)
      · exact h
      · assumption
  · rw [List.mem_cons]
    exact or_comm

theorem nodup_set_add {comps : List ℕ} {x : ℕ} (h : comps.Nodup) :
    (deterministic_prime.SieveOfEratosthenes.set_add comps x).Nodup := by
  rw [deterministic_prime.SieveOfEratosthenes.set_add]
  split
  · exact h
  · exact List.Nodup.cons (by assumption) h

theorem mem_mark_multiples {c ceil : ℕ} :
    ∀ (fuel start : ℕ) (comps : List ℕ), ceil < start + fuel * c →
      ∀ m, m ∈ deterministic_prime.SieveOfEratosthenes.mark_multiples c ceil start fuel comps
        ↔ m ∈ comps ∨ ∃ k, m = start + k * c ∧ m ≤ ceil := by
  intro fuel
  induction fuel with
  | zero =>
    intro start comps hf m
    show m ∈ comps ↔ _
    constructor
    · exact fun h => Or.inl h
    · rintro (h | ⟨k, rfl, hge⟩)
      · exact h
      · omega
  | succ n ih =>
    intro start comps hf m
    show m ∈ (if start ≤ ceil then
        deterministic_prime.SieveOfEratosthenes.mark_multiples c ceil (start + c) n
          (deterministic_prime.SieveOfEratosthenes.set_add comps start)
      else comps) ↔ _
    have hmul : (n + 1) * c = n * c + c := by ring
    have hf2 : ceil < start + c + n * c := by omega
    by_cases h : start ≤ ceil
    · rw [if_pos h, ih (start + c) _ hf2 m]
      rw [mem_set_add]
      constructor
      · rintro ((hm | rfl) | ⟨k, rfl, hk⟩)
        · exact Or.inl hm
        · exact Or.inr ⟨0, by omega, h⟩
        · refine Or.inr ⟨k + 1, ?_, hk⟩
          have hkc : (k + 1) * c = k * c + c := by ring
          omega
      · rintro (hm | ⟨k, rfl, hk⟩)
        · exact Or.inl (Or.inl hm)
        · cases k with
          | zero => exact Or.inl (Or.inr (by omega))
          | succ j =>
            refine Or.inr ⟨j, ?_, hk⟩
            have hjc : (j + 1) * c = j * c + c := by ring
            omega
    · rw [if_neg h]
      constructor
      · exact fun hm => Or.inl hm
      · rintro (hm | ⟨k, rfl, hk⟩)
        · exact hm
        · omega

theorem nodup_mark_multiples {c ceil : ℕ} :
    ∀ (fuel start : ℕ) (comps : List ℕ), comps.Nodup →
      (deterministic_prime.SieveOfEratosthenes.mark_multiples c ceil start fuel comps).Nodup := by
  intro fuel
  induction fuel with
  | zero => intro start comps h; exact h
  | succ n ih =>
    intro start comps h
    show (if start ≤ ceil then
        deterministic_prime.SieveOfEratosthenes.mark_multiples c ceil (start + c) n
          (deterministic_prime.SieveOfEratosthenes.set_add comps start)
      else comps).Nodup
    by_cases hs : start ≤ ceil
    · rw [if_pos hs]
      exact ih (start + c) _ (nodup_set_add h)
    · rw [if_neg hs]
      exact h

/-- The membership contract of the composites buffer at counter value `curr`:
values up to the ceiling, not yet passed, with a proper prime factor below `curr`. -/
def CompSpec (ceil curr m : ℕ) : Prop :=
  m ≤ ceil ∧ curr ≤ m ∧ ∃ p : ℕ, p.Prime ∧ p < curr ∧ p ∣ m ∧ p ≠ m

/-- The `_setup` loop invariant: the prime list holds exactly the primes below the
counter, and the composites buffer is a duplicate-free list satisfying `CompSpec`. -/
def SieveInv (ceil : ℕ) (st : deterministic_prime.SieveState) : Prop :=
  2 ≤ st.curr
  ∧ st.primes = intsOf (primesUpTo (st.curr - 1))
  ∧ st.composites.Nodup
  ∧ ∀ m, m ∈ st.composites ↔ CompSpec ceil st.curr m

theorem prime_of_not_comp {ceil curr : ℕ} (h2 : 2 ≤ curr) (hle : curr ≤ ceil)
    (h : ¬CompSpec ceil curr curr) : curr.Prime := by
  by_contra hnp
  have hsq := Nat.minFac_sq_le_self (show 0 < curr by omega) hnp
  have hlsq := Nat.le_sqrt'.mpr hsq
  have hslt := Nat.sqrt_lt_self (show 1 < curr by omega)
  exact h ⟨hle, le_refl _, curr.minFac, Nat.minFac_prime (by omega), by omega,
    Nat.minFac_dvd _, by omega⟩

theorem not_prime_of_comp {ceil curr : ℕ} (h : CompSpec ceil curr curr) : ¬curr.Prime := by
  obtain ⟨-, -, p, hp, hplt, hpdvd, hpne⟩ := h
  intro hprime
  rcases hprime.eq_one_or_self_of_dvd p hpdvd with h1 | h1
  · exact hp.one_lt.ne' h1
  · exact hpne h1

theorem primesUpTo_pred_of_not_prime {c : ℕ} (h2 : 2 ≤ c) (hnp : ¬c.Prime) :
    primesUpTo (c - 1) = primesUpTo c := by
  have hc : c - 1 + 1 = c := by omega
  have hstep := primesUpTo_succ (c - 1)
  rw [hc] at hstep
  have href : isPrimeRef c = false := by
    cases hr : isPrimeRef c with
    | false => rfl
    | true => exact absurd ((isPrimeRef_iff _).mp hr) hnp
  rw [href] at hstep
  simpa using hstep.symm

theorem primesUpTo_pred_of_prime {c : ℕ} (h2 : 2 ≤ c) (hp : c.Prime) :
    primesUpTo c = primesUpTo (c - 1) ++ [c] := by
  have hc : c - 1 + 1 = c := by omega
  have hstep := primesUpTo_succ (c - 1)
  rw [hc] at hstep
  have href : isPrimeRef c = true := (isPrimeRef_iff _).mpr hp
  rw [href] at hstep
  simpa using hstep

theorem sieve_step_inv {ceil : ℕ} {st : deterministic_prime.SieveState}
    (hI : SieveInv ceil st) (hle : st.curr ≤ ceil) :
    SieveInv ceil (deterministic_prime.SieveOfEratosthenes.sieve_step ceil st) := by
  obtain ⟨h2, hp, hnd, hcomp⟩ := hI
  rw [deterministic_prime.SieveOfEratosthenes.sieve_step]
  by_cases hmem : st.curr ∈ st.composites
  · rw [if_neg (not_not_intro hmem)]
    have hnp : ¬st.curr.Prime := not_prime_of_comp ((hcomp st.curr).mp hmem)
    refine ⟨?_, ?_, ?_, ?_⟩
    · show 2 ≤ st.curr + 1
      omega
    · show st.primes = intsOf (primesUpTo (st.curr + 1 - 1))
      rw [hp, show st.curr + 1 - 1 = st.curr by omega,
        primesUpTo_pred_of_not_prime h2 hnp]
    · exact List.Nodup.erase _ hnd
    · intro m
      show m ∈ st.composites.erase st.curr ↔ CompSpec ceil (st.curr + 1) m
      rw [List.Nodup.mem_erase_iff hnd, hcomp m]
      constructor
      · rintro ⟨hne, hm, hcm, p, hp1, hp2, hp3, hp4⟩
        exact ⟨hm, by omega, p, hp1, by omega, hp3, hp4⟩
      · rintro ⟨hm, hcm, p, hp1, hp2, hp3, hp4⟩
        have hplt : p < st.curr := by
          rcases Nat.lt_succ_iff_lt_or_eq.mp hp2 with h | h
          · exact h
          · rw [h] at hp1
            exact absurd hp1 hnp
        exact ⟨by omega, hm, by omega, p, hp1, hplt, hp3, hp4⟩
  · rw [if_pos hmem]
    have hprime : st.curr.Prime :=
      prime_of_not_comp h2 hle fun hc => hmem ((hcomp st.curr).mpr hc)
    refine ⟨?_, ?_, ?_, ?_⟩
    · show 2 ≤ st.curr + 1
      omega
    · show deterministic_prime.OrderedList.append st.primes ((st.curr : ℕ) : ℤ)
          = intsOf (primesUpTo (st.curr + 1 - 1))
      have hdetp : deterministic_prime.OrderedList.append st.primes ((st.curr : ℕ) : ℤ)
          = prime.OrderedList.append st.primes ((st.curr : ℕ) : ℤ) := rfl
      rw [hdetp, hp, append_of_gt (lt_of_le_of_lt (max_elem_primesUpTo _)
        (by exact_mod_cast (by omega : st.curr - 1 < st.curr)))]
      rw [show st.curr + 1 - 1 = st.curr by omega, primesUpTo_pred_of_prime h2 hprime]
      simp [intsOf]
    · exact nodup_mark_multiples _ _ _ hnd
    · intro m
      show m ∈ deterministic_prime.SieveOfEratosthenes.mark_multiples st.curr ceil
          (st.curr * 2) (ceil + 1) st.composites ↔ CompSpec ceil (st.curr + 1) m
      have hfuel : ceil < st.curr * 2 + (ceil + 1) * st.curr := by
        have h1 : (ceil + 1) * 1 ≤ (ceil + 1) * st.curr :=
          Nat.mul_le_mul_left (ceil + 1) (by omega)
        omega
      rw [mem_mark_multiples (ceil + 1) (st.curr * 2) st.composites hfuel m]
      constructor
      · rintro (hm | ⟨k, rfl, hk⟩)
        · obtain ⟨hm1, hm2, p, hp1, hp2, hp3, hp4⟩ := (hcomp m).mp hm
          have hmne : m ≠ st.curr := fun hEq => hmem (hEq ▸ hm)
          exact ⟨hm1, by omega, p, hp1, by omega, hp3, hp4⟩
        · refine ⟨hk, by nlinarith, st.curr, hprime, by omega, ⟨2 + k, by ring⟩, by nlinarith⟩
      · rintro ⟨hm1, hm2, p, hp1, hp2, hp3, hp4⟩
        rcases Nat.lt_succ_iff_lt_or_eq.mp hp2 with hlt | hEq
        · exact Or.inl ((hcomp m).mpr ⟨hm1, by omega, p, hp1, hlt, hp3, hp4⟩)
        · subst hEq
          obtain ⟨q, hq⟩ := hp3
          have hq2 : 2 ≤ q := by
            rcases Nat.lt_or_ge q 2 with hq1 | hq1
            · interval_cases q <;> omega
            · exact hq1
          obtain ⟨j, rfl⟩ : ∃ j, q = j + 2 := ⟨q - 2, by omega⟩
          refine Or.inr ⟨j, ?_, hm1⟩
          rw [hq]
          ring

theorem sieve_step_curr (ceil : ℕ) (st : deterministic_prime.SieveState) :
    (deterministic_prime.SieveOfEratosthenes.sieve_step ceil st).curr = st.curr + 1 := by
  rw [deterministic_prime.SieveOfEratosthenes.sieve_step]
  split <;> rfl

/-- The `_setup` loop of the sieve leaves `_curr` at `ceil + 1`: every iteration
advances `_curr` by one and the loop stops as soon as `_curr` exceeds the ceiling. -/
theorem setup_loop_curr (ceil : ℕ) : ∀ (fuel : ℕ) (st : deterministic_prime.SieveState),
    st.curr ≤ ceil + 1 → ceil + 1 - st.curr ≤ fuel →
    (deterministic_prime.SieveOfEratosthenes.setup_loop ceil fuel st).curr = ceil + 1 := by
  intro fuel
  induction fuel with
  | zero =>
    intro st h1 h2
    show st.curr = ceil + 1
    omega
  | succ n ih =>
    intro st h1 h2
    show (if st.curr ≤ ceil then
        deterministic_prime.SieveOfEratosthenes.setup_loop ceil n
          (deterministic_prime.SieveOfEratosthenes.sieve_step ceil st)
      else st).curr = ceil + 1
    by_cases h : st.curr ≤ ceil
    · rw [if_pos h]
      exact ih _ (by rw [sieve_step_curr]; omega) (by rw [sieve_step_curr]; omega)
    · rw [if_neg h]
      omega

theorem setup_loop_inv (ceil : ℕ) : ∀ (fuel : ℕ) (st : deterministic_prime.SieveState),
    SieveInv ceil st →
    SieveInv ceil (deterministic_prime.SieveOfEratosthenes.setup_loop ceil fuel st) := by
  intro fuel
  induction fuel with
  | zero => intro st hI; exact hI
  | succ n ih =>
    intro st hI
    show SieveInv ceil (if st.curr ≤ ceil then
        deterministic_prime.SieveOfEratosthenes.setup_loop ceil n
          (deterministic_prime.SieveOfEratosthenes.sieve_step ceil st)
      else st)
    by_cases h : st.curr ≤ ceil
    · rw [if_pos h]
      exact ih _ (sieve_step_inv hI h)
    · rw [if_neg h]
      exact hI

/-- Correctness of the sieve construction: `SieveOfEratosthenes(limit)` computes
exactly the primes up to `limit`, in increasing order. -/
theorem sieve_init_primes (limit : ℕ) (h : 2 ≤ limit) :
    (deterministic_prime.SieveOfEratosthenes.init limit).primes
      = intsOf (primesUpTo limit) := by
  have hI0 : SieveInv limit { primes := [], composites := [], curr := 2 } := by
    refine ⟨le_refl 2, by decide, List.nodup_nil, ?_⟩
    intro m
    show m ∈ ([] : List ℕ) ↔ CompSpec limit 2 m
    simp only [List.not_mem_nil, false_iff]
    rintro ⟨-, -, p, hp, hp2, -, -⟩
    have := hp.two_le
    omega
  have hI := setup_loop_inv limit (limit + 1) _ hI0
  have hc := setup_loop_curr limit (limit + 1)
    { primes := [], composites := [], curr := 2 }
    (by show 2 ≤ limit + 1; omega) (by show limit + 1 - 2 ≤ limit + 1; omega)
  obtain ⟨-, hpr, -, -⟩ := hI
  show (deterministic_prime.SieveOfEratosthenes.setup_loop limit (limit + 1)
      { primes := [], composites := [], curr := 2 }).primes = _
  rw [hpr, hc, Nat.add_sub_cancel]

/-! Evaluation helpers used by the claim theorems. -/

/-- When the watermark already covers `round_sqrt val`, the dynamic `is_prime` of
src/prime.py performs no growth and defers directly to the base-class check. -/
theorem dyn_is_prime_no_growth {s : prime.DynamicPrimesCache} {val : ℕ}
    (h : prime.round_sqrt val ≤ s.highest_tested) :
    prime.DynamicPrimesCache.is_prime s val
      = (prime.PrimesCache.is_prime s.primes val, s) := by
  simp only [prime.DynamicPrimesCache.is_prime]
  rw [prime.DynamicPrimesCache.grow_of_le h]

/-- The analogue for src/primes/deterministic_prime.py, whose loop guard is
non-strict: no growth happens when the watermark strictly exceeds `round_sqrt val`. -/
theorem dyn2_is_prime_no_growth {s : deterministic_prime.DynamicPrimesCache} {val : ℕ}
    (h : deterministic_prime.round_sqrt val < s.highest_tested) :
    deterministic_prime.DynamicPrimesCache.is_prime s val
      = (deterministic_prime.PrimesCache.is_prime s.primes val, s) := by
  simp only [deterministic_prime.DynamicPrimesCache.is_prime]
  rw [deterministic_prime.DynamicPrimesCache.grow_of_lt h]

theorem prime_init_primes_eq :
    prime.DynamicPrimesCache.init.primes = intsOf (primesUpTo 100) :=
  SInv_init.1

theorem det_init_primes_eq :
    deterministic_prime.DynamicPrimesCache.init.primes = intsOf (primesUpTo 100) := by
  decide

theorem sqrt_le_one_of_lt_four {t : ℕ} (ht : t < 4) : Nat.sqrt t ≤ 1 := by
  have := Nat.sqrt_lt.mpr (show t < 2 * 2 by omega)
  omega

/-! Claim theorems. -/

/-- C1, counterexample: on a freshly constructed `DynamicPrimesCache` (watermark 100),
`is_prime(101)` leaves `highest_tested()` at 100 — not 101 as the claim states — because
the growth loop only runs while the watermark is below `round_sqrt 101 = 10`. -/
theorem c1_is_prime_101_watermark_stays_100 :
    (prime.DynamicPrimesCache.is_prime prime.DynamicPrimesCache.init 101).2.highest_tested
        = 100
      ∧ (100 : ℕ) ≠ 101 := by
  rw [dyn_is_prime_no_growth (by decide)]
  exact ⟨rfl, by decide⟩

/-- C1, amended: `is_prime(101)` on a fresh incremental cache returns `True`, and the
cache does not grow at all during the call — the state (sequence and watermark 100)
is returned unchanged. -/
theorem c1_is_prime_101_true_no_growth :
    prime.DynamicPrimesCache.is_prime prime.DynamicPrimesCache.init 101
      = (some true, prime.DynamicPrimesCache.init) := by
  rw [dyn_is_prime_no_growth (by decide)]
  decide

/-- C2: after construction and after any finite sequence of `test_next()` and
`is_prime(v)` calls (each `v ≥ 2`), every prime up to `highest_tested()` is in the
sequence of the incremental cache of src/prime.py and no composite number is. -/
theorem c2_completeness_invariant (ops : List Op) (hops : ∀ op ∈ ops, op.valid) :
    CacheComplete (run prime.DynamicPrimesCache.init ops) :=
  SInv_implies_complete (SInv_run ops _ SInv_init)

/-- C2, witness at the concrete operation sequence `is_prime 101` then `test_next`. -/
theorem c2_completeness_invariant_witness :
    (∀ op ∈ [Op.ip 101, Op.tn], op.valid)
      ∧ CacheComplete (run prime.DynamicPrimesCache.init [Op.ip 101, Op.tn]) :=
  ⟨by decide, c2_completeness_invariant [Op.ip 101, Op.tn] (by decide)⟩

/-- C5: appending a value that is not strictly greater than the current maximum is a
silent no-op, in both copies of `OrderedList` (src/prime.py and
src/primes/deterministic_prime.py); the operation is total, so no error is raised. -/
theorem c5_append_nonincreasing_noop (l : List ℤ) (v : ℤ)
    (h : v ≤ prime.OrderedList.max_elem l) :
    prime.OrderedList.append l v = l ∧ deterministic_prime.OrderedList.append l v = l := by
  constructor
  · rw [prime.OrderedList.append, if_neg (by omega)]
  · rw [deterministic_prime.OrderedList.append, if_neg ?_]
    show ¬v > prime.OrderedList.max_elem l
    omega

/-- C5, witness: the scenario of the claim — `append 5` then `append 3` on an
initially empty sequence leaves the sequence at `[5]`. -/
theorem c5_append_nonincreasing_noop_witness :
    ((3 : ℤ) ≤ prime.OrderedList.max_elem (prime.OrderedList.append [] 5))
      ∧ (prime.OrderedList.append (prime.OrderedList.append [] 5) 3
            = prime.OrderedList.append [] 5
        ∧ deterministic_prime.OrderedList.append (prime.OrderedList.append [] 5) 3
            = prime.OrderedList.append [] 5) :=
  ⟨by decide, c5_append_nonincreasing_noop (prime.OrderedList.append [] 5) 3 (by decide)⟩

/-- C6: on the non-empty sequence `[5]` with every element at most the ceiling 7, the
`get_nums_below` of src/prime.py raises IndexError (modelled as `none`) instead of
returning the whole sequence; the revised version in
src/primes/deterministic_prime.py returns the whole sequence, and returns `[]` when
the ceiling lies below the first element. -/
theorem c6_get_nums_below_behavior :
    prime.OrderedList.get_nums_below [5] 7 = none
      ∧ deterministic_prime.OrderedList.get_nums_below [5] 7 = some [5]
      ∧ deterministic_prime.OrderedList.get_nums_below [2, 3, 5] 1 = some [] := by
  refine ⟨rfl, rfl, ?_⟩
  rw [deterministic_prime.OrderedList.get_nums_below, if_neg (by decide)]
  rfl

/-- C7, counterexample: `is_prime(1)` and `is_prime(0)` on a fresh incremental cache
do not fail with an invalid-argument error — both return normally with `True`
(`none` would be a raised exception in this embedding). -/
theorem c7_is_prime_one_returns_true :
    (prime.DynamicPrimesCache.is_prime prime.DynamicPrimesCache.init 1).1 = some true
      ∧ (prime.DynamicPrimesCache.is_prime prime.DynamicPrimesCache.init 0).1 = some true := by
  rw [dyn_is_prime_no_growth (by decide), dyn_is_prime_no_growth (by decide)]
  decide

/-- C8: `WilsonsThm.is_prime` evaluates the Wilson congruence as a bare boolean —
`True` for the prime 5 and `False` for the composite 6 — rather than building the
`PrimeRes`/`CompositeRes` objects its `-> PredRes` annotation promises. -/
theorem c8_wilsons_thm_bool_results :
    probabilistic_prime.WilsonsThm.is_prime 5 = true
      ∧ probabilistic_prime.WilsonsThm.is_prime 6 = false := by
  decide

/-- C9 (spec-modelled, the method body is missing from the source): for every
candidate `val ≥ 3` and picked witness `a` coprime to it, the Fermat test returns
`CompositeRes a` when `a^(val−1) mod val ≠ 1` and `MaybePrimeRes 1` otherwise. -/
theorem c9_fermat_test_result (val a : ℕ) (h3 : 3 ≤ val)
    (hco : gcd.is_coprime a val = true) :
    (a ^ (val - 1) % val ≠ 1 →
        probabilistic_prime.FermatTest.is_prime val a
          = probabilistic_prime.PredRes.CompositeRes (a : ℤ))
      ∧ (a ^ (val - 1) % val = 1 →
        probabilistic_prime.FermatTest.is_prime val a
          = probabilistic_prime.PredRes.MaybePrimeRes 1) := by
  constructor <;> intro h <;> simp [probabilistic_prime.FermatTest.is_prime, h]

/-- C9, witness at candidate 5 with coprime witness 2 (so `2^4 mod 5 = 1` and the
result is `MaybePrimeRes 1`). -/
theorem c9_fermat_test_result_witness :
    (3 ≤ 5 ∧ gcd.is_coprime 2 5 = true)
      ∧ (2 ^ (5 - 1) % 5 = 1 →
        probabilistic_prime.FermatTest.is_prime 5 2
          = probabilistic_prime.PredRes.MaybePrimeRes 1) :=
  ⟨⟨by omega, by simp [gcd.is_coprime, gcd.Euclidean.recursive_calculate]⟩,
    (c9_fermat_test_result 5 2 (by omega)
      (by simp [gcd.is_coprime, gcd.Euclidean.recursive_calculate])).2⟩

/-- C10: a probable-prime result is indistinguishable from the definite `PrimeRes`
at the boolean interface — `MaybePrimeRes` inherits `is_prime` from `PrimeRes`, so it
answers `true` for every rounds count. -/
theorem c10_maybe_prime_res_is_prime (k : ℕ) :
    (probabilistic_prime.PredRes.MaybePrimeRes k).is_prime = true
      ∧ (probabilistic_prime.PredRes.MaybePrimeRes k).is_prime
          = probabilistic_prime.PredRes.PrimeRes.is_prime :=
  ⟨rfl, rfl⟩

/-- C3 (the sieve construction itself raises TypeError in the source, see the
`sieve_step` remark; under that one repaired attribute read the claim holds): for
every `n` in `[2, 500]`, the incremental caches of both source files and the
`SieveOfEratosthenes(500)` cache return the same `is_prime(n)` answer. -/
theorem c3_incremental_and_sieve_agree (n : ℕ) (h2 : 2 ≤ n) (h5 : n ≤ 500) :
    (deterministic_prime.DynamicPrimesCache.is_prime
          deterministic_prime.DynamicPrimesCache.init n).1
        = deterministic_prime.SieveOfEratosthenes.is_prime
            (deterministic_prime.SieveOfEratosthenes.init 500) n
      ∧ (prime.DynamicPrimesCache.is_prime prime.DynamicPrimesCache.init n).1
        = deterministic_prime.SieveOfEratosthenes.is_prime
            (deterministic_prime.SieveOfEratosthenes.init 500) n := by
  have hsqn : Nat.sqrt n ≤ 22 := by
    have ha : Nat.sqrt n ≤ Nat.sqrt 500 := Nat.sqrt_le_sqrt h5
    have hb : Nat.sqrt 500 < 23 := Nat.sqrt_lt.mpr (by omega)
    omega
  have h97 : Nat.Prime 97 := by norm_num
  have hd : deterministic_prime.round_sqrt n
      < deterministic_prime.DynamicPrimesCache.init.highest_tested := by
    rw [det_round_sqrt_eq]
    show Nat.sqrt n < 100
    omega
  have hp : prime.round_sqrt n ≤ prime.DynamicPrimesCache.init.highest_tested := by
    rw [prime_round_sqrt_eq]
    show Nat.sqrt n ≤ 100
    omega
  rw [dyn2_is_prime_no_growth hd, dyn_is_prime_no_growth hp]
  simp only [deterministic_prime.SieveOfEratosthenes.is_prime]
  rw [sieve_init_primes 500 (by omega)]
  show deterministic_prime.PrimesCache.is_prime
        deterministic_prime.DynamicPrimesCache.init.primes n
      = deterministic_prime.PrimesCache.is_prime (intsOf (primesUpTo 500)) n
    ∧ prime.PrimesCache.is_prime prime.DynamicPrimesCache.init.primes n
      = deterministic_prime.PrimesCache.is_prime (intsOf (primesUpTo 500)) n
  rw [det_init_primes_eq, prime_init_primes_eq,
    @det_cache_is_prime_eval 100 n h2 (by omega)
      ⟨97, mem_primesUpTo.mpr ⟨h97, by omega⟩, by omega⟩,
    @det_cache_is_prime_eval 500 n h2 (by omega)
      ⟨97, mem_primesUpTo.mpr ⟨h97, by omega⟩, by omega⟩,
    @cache_is_prime_eval 100 n h2 (by omega)
      ⟨97, mem_primesUpTo.mpr ⟨h97, by omega⟩, by omega⟩]
  exact ⟨rfl, rfl⟩

/-- C3, witness at `n = 10` (a composite: both caches answer `false`). -/
theorem c3_incremental_and_sieve_agree_witness :
    ((2 : ℕ) ≤ 10 ∧ (10 : ℕ) ≤ 500)
      ∧ ((deterministic_prime.DynamicPrimesCache.is_prime
              deterministic_prime.DynamicPrimesCache.init 10).1
          = deterministic_prime.SieveOfEratosthenes.is_prime
              (deterministic_prime.SieveOfEratosthenes.init 500) 10
        ∧ (prime.DynamicPrimesCache.is_prime prime.DynamicPrimesCache.init 10).1
          = deterministic_prime.SieveOfEratosthenes.is_prime
              (deterministic_prime.SieveOfEratosthenes.init 500) 10) :=
  ⟨⟨by omega, by omega⟩, c3_incremental_and_sieve_agree 10 (by omega) (by omega)⟩

/-- C4: for every ceiling `limit ≥ 2`, `highest_tested()` of a freshly built
`SieveOfEratosthenes(limit)` is `limit + 1` — the final value of the `_curr` loop
counter — and not the ceiling `limit` that its docstring promises.  (Worse, the
`_curr_num` property getter it calls is declared without `self`, so in the source
the call raises TypeError outright; see `sieve_step`.) -/
theorem c4_sieve_highest_tested_off_by_one (limit : ℕ) (h : 2 ≤ limit) :
    (deterministic_prime.SieveOfEratosthenes.init limit).highest_tested = limit + 1
      ∧ limit + 1 ≠ limit := by
  constructor
  · show (deterministic_prime.SieveOfEratosthenes.setup_loop limit (limit + 1)
        { primes := [], composites := [], curr := 2 }).curr = limit + 1
    refine setup_loop_curr limit (limit + 1) _ ?_ ?_
    · show 2 ≤ limit + 1
      omega
    · show limit + 1 - 2 ≤ limit + 1
      omega
  · omega

/-- C4, witness at the concrete ceiling 10: `highest_tested()` is 11. -/
theorem c4_sieve_highest_tested_off_by_one_witness :
    (2 : ℕ) ≤ 10
      ∧ ((deterministic_prime.SieveOfEratosthenes.init 10).highest_tested = 10 + 1
        ∧ 10 + 1 ≠ 10) :=
  ⟨by omega, c4_sieve_highest_tested_off_by_one 10 (by omega)⟩

/-- C7, amended: `is_prime(2)` is `True` on the small-primes cache, the incremental
cache and the 500-sieve — but `is_prime(1)` and `is_prime(0)` do not fail: with no
cached prime at most their square root, trial division is vacuous and each call
also returns `True`.  The code never validates its input domain. -/
theorem c7_boundary_values :
    prime.PrimesCache.is_prime prime.SmallPrimesCache.init 2 = some true
      ∧ prime.PrimesCache.is_prime prime.SmallPrimesCache.init 1 = some true
      ∧ prime.PrimesCache.is_prime prime.SmallPrimesCache.init 0 = some true
      ∧ (prime.DynamicPrimesCache.is_prime prime.DynamicPrimesCache.init 2).1 = some true
      ∧ (prime.DynamicPrimesCache.is_prime prime.DynamicPrimesCache.init 1).1 = some true
      ∧ (prime.DynamicPrimesCache.is_prime prime.DynamicPrimesCache.init 0).1 = some true
      ∧ deterministic_prime.SieveOfEratosthenes.is_prime
          (deterministic_prime.SieveOfEratosthenes.init 500) 2 = some true
      ∧ deterministic_prime.SieveOfEratosthenes.is_prime
          (deterministic_prime.SieveOfEratosthenes.init 500) 1 = some true
      ∧ deterministic_prime.SieveOfEratosthenes.is_prime
          (deterministic_prime.SieveOfEratosthenes.init 500) 0 = some true  := by
  rw [dyn_is_prime_no_growth (by decide), dyn_is_prime_no_growth (by decide),
    dyn_is_prime_no_growth (by decide)]
  simp only [deterministic_prime.SieveOfEratosthenes.is_prime]
  rw [sieve_init_primes 500 (by omega)]
  have hsmall : prime.SmallPrimesCache.init = intsOf (primesUpTo 100) :=
    prime_init_primes_eq
  rw [hsmall]
  refine ⟨?_, ?_, ?_, ?_, ?_, ?_, ?_, ?_, ?_⟩
  · exact @cache_is_prime_small 100 2 (by omega) (sqrt_le_one_of_lt_four (by omega))
  · exact @cache_is_prime_small 100 1 (by omega) (sqrt_le_one_of_lt_four (by omega))
  · exact @cache_is_prime_small 100 0 (by omega) (sqrt_le_one_of_lt_four (by omega))
  · show prime.PrimesCache.is_prime prime.DynamicPrimesCache.init.primes 2 = some true
    rw [prime_init_primes_eq]
    exact @cache_is_prime_small 100 2 (by omega) (sqrt_le_one_of_lt_four (by omega))
  · show prime.PrimesCache.is_prime prime.DynamicPrimesCache.init.primes 1 = some true
    rw [prime_init_primes_eq]
    exact @cache_is_prime_small 100 1 (by omega) (sqrt_le_one_of_lt_four (by omega))
  · show prime.PrimesCache.is_prime prime.DynamicPrimesCache.init.primes 0 = some true
    rw [prime_init_primes_eq]
    exact @cache_is_prime_small 100 0 (by omega) (sqrt_le_one_of_lt_four (by omega))
  · exact @det_cache_is_prime_small 500 2 (by omega) (sqrt_le_one_of_lt_four (by omega))
  · exact @det_cache_is_prime_small 500 1 (by omega) (sqrt_le_one_of_lt_four (by omega))
  · exact @det_cache_is_prime_small 500 0 (by omega) (sqrt_le_one_of_lt_four (by omega))

/-- C10, witness at the concrete rounds count 3. -/
theorem c10_maybe_prime_res_is_prime_witness :
    (probabilistic_prime.PredRes.MaybePrimeRes 3).is_prime = true
      ∧ (probabilistic_prime.PredRes.MaybePrimeRes 3).is_prime
          = probabilistic_prime.PredRes.PrimeRes.is_prime :=
  c10_maybe_prime_res_is_prime 3
